import Mathlib

/-!
Verification of the T3 alpha-beta minimax player (`src/t3_player.py`).

The engine is polymorphic over a state abstraction (`T3State` in the
repository, whose implementation lives outside the verified source); we model
a state as a finite game tree carrying the results of `is_win()`, `is_tie()`
and `get_transitions()` at every node.  Python floats appear only as the
utilities 0.0, 0.5, 1.0 and the sentinels ±infinity, so we embed them as an
extended-rational type `XF` on which the comparisons used by the code are
exact.
-/

/-- Extended rationals: the float values the engine manipulates are the three
utilities `0`, `1/2`, `1` together with `float('-inf')` and `float('inf')`.
No NaN can arise, so this three-constructor type with the evident total order
models every comparison the Python code performs. -/
inductive XF where
  | ninf : XF
  | fin (q : ℚ) : XF
  | pinf : XF
deriving DecidableEq, Repr

namespace XF

/-- Strict `<` on extended rationals, matching Python float comparison on the
values that occur. -/
def lt : XF → XF → Bool
  | ninf, ninf => false
  | ninf, _ => true
  | fin _, ninf => false
  | fin p, fin q => decide (p < q)
  | fin _, pinf => true
  | pinf, _ => false

/-- `x <= y`, matching Python float comparison on the values that occur. -/
def le (x y : XF) : Bool := !(lt y x)

/-- Python `max(x, y)`: returns `y` exactly when `x < y`. -/
def pmax (x y : XF) : XF := if lt x y then y else x

/-- Python `min(x, y)`: returns `y` exactly when `y < x`. -/
def pmin (x y : XF) : XF := if lt y x then y else x

end XF

instance : LinearOrder XF where
  le x y := XF.le x y = true
  lt x y := XF.lt x y = true
  le_refl x := by cases x <;> simp [XF.le, XF.lt]
  le_trans x y z := by
    cases x <;> cases y <;> cases z <;> simp [XF.le, XF.lt, not_lt] <;>
      intros <;> linarith
  le_antisymm x y := by
    cases x <;> cases y <;> simp [XF.le, XF.lt, not_lt] <;>
      intros <;> linarith
  le_total x y := by
    cases x <;> cases y <;> simp [XF.le, XF.lt, not_lt] <;> exact le_total _ _
  lt_iff_le_not_le x y := by
    cases x <;> cases y <;> simp [XF.le, XF.lt, not_lt] <;>
      intros <;> linarith
  decidableLE x y := inferInstanceAs (Decidable (XF.le x y = true))

/-- The utilities a terminal contributes: `0`, `1/2` or `1`. -/
def isUtil (u : XF) : Bool :=
  u = XF.fin 0 || u = XF.fin (1/2) || u = XF.fin 1

/-- Modelled from the spec: `T3Action` (defined in the repository's
`t3_state.py`, which is not part of the verified source) is an opaque move
identifier; only its total order is relevant to the engine. -/
structure T3Action where
  col : ℕ
  row : ℕ
  move : ℕ
deriving DecidableEq, Repr

/-- Modelled from the spec: the canonical total order on actions — ascending
column, then ascending row, then ascending move number. -/
def T3Action.lt (x y : T3Action) : Bool :=
  if x.col ≠ y.col then decide (x.col < y.col)
  else if x.row ≠ y.row then decide (x.row < y.row)
  else decide (x.move < y.move)

/-- `action < optimal_move` where `optimal_move : Optional[T3Action]`.  The
`none` case is never reached by the engine (the incumbent action is set on the
first loop iteration before any comparison happens); we let it compare false,
keeping the incumbent. -/
def T3Action.ltOpt (x : T3Action) : Option T3Action → Bool
  | none => false
  | some y => T3Action.lt x y

/-- Modelled from the spec: a state of the abstraction, recorded as the finite
game tree of answers the engine can observe — `is_win()`, `is_tie()`, and the
list of `(action, next state)` pairs returned by `get_transitions()`. -/
inductive T3State where
  | mk (win : Bool) (tie : Bool) (trans : List (T3Action × T3State)) : T3State

/-- `state.is_win()`. -/
def T3State.is_win : T3State → Bool
  | .mk w _ _ => w

/-- `state.is_tie()`. -/
def T3State.is_tie : T3State → Bool
  | .mk _ t _ => t

/-- `state.get_transitions()`. -/
def T3State.get_transitions : T3State → List (T3Action × T3State)
  | .mk _ _ ts => ts

mutual
/-- Size of a game tree, used as the recursion measure. -/
def T3State.sizeS : T3State → Nat
  | .mk _ _ ts => 1 + T3State.sizeL ts

/-- Total size of a transition list. -/
def T3State.sizeL : List (T3Action × T3State) → Nat
  | [] => 0
  | (_, s) :: rest => 1 + T3State.sizeS s + T3State.sizeL rest
end

/-- `best_choice_max` from `t3_player.py`, verbatim: strict improvement takes
the candidate triple; equal utility with strictly smaller depth takes the
candidate triple; equal utility, equal depth and smaller action takes the
candidate action but the incumbent utility and depth; otherwise the incumbent
triple is kept. -/
def best_choice_max (utility_score best_score : XF) (action : T3Action)
    (optimal_move : Option T3Action) (new_depth lowest_depth : ℕ) :
    XF × Option T3Action × ℕ :=
  if XF.lt best_score utility_score then
    (utility_score, some action, new_depth)
  else if utility_score = best_score then
    if new_depth < lowest_depth then
      (utility_score, some action, new_depth)
    else if new_depth = lowest_depth ∧ T3Action.ltOpt action optimal_move then
      (best_score, some action, lowest_depth)
    else
      (best_score, optimal_move, lowest_depth)
  else
    (best_score, optimal_move, lowest_depth)

/-- `best_choice_min` from `t3_player.py`, verbatim; only the first comparison
direction differs from `best_choice_max`. -/
def best_choice_min (utility_score best_score : XF) (action : T3Action)
    (optimal_move : Option T3Action) (new_depth lowest_depth : ℕ) :
    XF × Option T3Action × ℕ :=
  if XF.lt utility_score best_score then
    (utility_score, some action, new_depth)
  else if utility_score = best_score then
    if new_depth < lowest_depth then
      (utility_score, some action, new_depth)
    else if new_depth = lowest_depth ∧ T3Action.ltOpt action optimal_move then
      (best_score, some action, lowest_depth)
    else
      (best_score, optimal_move, lowest_depth)
  else
    (best_score, optimal_move, lowest_depth)

mutual
/-- `alphabeta` from `t3_player.py`.  Checks tie then win; a win at a min node
is worth 1, otherwise 0; then expands via the max or min loop depending on the
two boolean role flags, falling through to `(0, none, node_depth)` when the
flags are inconsistent. -/
def alphabeta (state : T3State) (a B : XF) (is_max is_min : Bool)
    (node_depth : ℕ) : XF × Option T3Action × ℕ :=
  if state.is_tie then (.fin (1/2), none, node_depth)
  else if state.is_win then
    if !is_max && is_min then (.fin 1, none, node_depth)
    else (.fin 0, none, node_depth)
  else if is_max && !is_min then
    alphabetaMaxLoop state.get_transitions a B node_depth .ninf none node_depth
  else if is_min && !is_max then
    alphabetaMinLoop state.get_transitions a B node_depth .pinf none node_depth
  else (.fin 0, none, node_depth)
termination_by state.sizeS
decreasing_by
all_goals cases state with
  | mk w t ts => simp [T3State.sizeS, T3State.sizeL, T3State.get_transitions]

/-- The `for` loop of the max branch of `alphabeta`: evaluates each child with
the current window, combines via `best_choice_max`, raises `a`, and breaks
(returning the accumulator) once `B <= a`. -/
def alphabetaMaxLoop (moves : List (T3Action × T3State)) (a B : XF)
    (node_depth : ℕ) (best_score : XF) (optimal_move : Option T3Action)
    (lowest_depth : ℕ) : XF × Option T3Action × ℕ :=
  match moves with
  | [] => (best_score, optimal_move, lowest_depth)
  | (action, child) :: rest =>
    let r := alphabeta child a B false true (node_depth + 1)
    let c := best_choice_max r.1 best_score action optimal_move r.2.2
      lowest_depth
    let a' := XF.pmax a c.1
    if XF.le B a' then c
    else alphabetaMaxLoop rest a' B node_depth c.1 c.2.1 c.2.2
termination_by T3State.sizeL moves
decreasing_by
all_goals simp [T3State.sizeL] <;> omega

/-- The `for` loop of the min branch of `alphabeta`: evaluates each child with
the current window, combines via `best_choice_min`, lowers `B`, and breaks
once `B <= a`. -/
def alphabetaMinLoop (moves : List (T3Action × T3State)) (a B : XF)
    (node_depth : ℕ) (best_score : XF) (optimal_move : Option T3Action)
    (lowest_depth : ℕ) : XF × Option T3Action × ℕ :=
  match moves with
  | [] => (best_score, optimal_move, lowest_depth)
  | (action, child) :: rest =>
    let r := alphabeta child a B true false (node_depth + 1)
    let c := best_choice_min r.1 best_score action optimal_move r.2.2
      lowest_depth
    let B' := XF.pmin B c.1
    if XF.le B' a then c
    else alphabetaMinLoop rest a B' node_depth c.1 c.2.1 c.2.2
termination_by T3State.sizeL moves
decreasing_by
all_goals simp [T3State.sizeL] <;> omega
end

/-- `choose` from `t3_player.py`: starts `alphabeta` as a max node with the
full window `(-inf, inf)` at depth 0 and returns the chosen action. -/
def choose (state : T3State) : Option T3Action :=
  (alphabeta state .ninf .pinf true false 0).2.1

mutual
/-- Modelled from the spec: exhaustive unpruned minimax — "running the search
with alpha-beta bounds disabled (effectively `-infinity`/`+infinity`
throughout, never narrowing)" — with the identical terminal handling and
tie-break combination rules as `alphabeta`. -/
def minimax (state : T3State) (maximizing : Bool) (node_depth : ℕ) :
    XF × Option T3Action × ℕ :=
  if state.is_tie then (.fin (1/2), none, node_depth)
  else if state.is_win then
    if !maximizing then (.fin 1, none, node_depth)
    else (.fin 0, none, node_depth)
  else if maximizing then
    minimaxMaxLoop state.get_transitions node_depth .ninf none node_depth
  else
    minimaxMinLoop state.get_transitions node_depth .pinf none node_depth
termination_by state.sizeS
decreasing_by
all_goals cases state with
  | mk w t ts => simp [T3State.sizeS, T3State.sizeL, T3State.get_transitions]

/-- The exhaustive max loop: every child is evaluated, combination as in
`alphabeta`, no window and no break. -/
def minimaxMaxLoop (moves : List (T3Action × T3State)) (node_depth : ℕ)
    (best_score : XF) (optimal_move : Option T3Action) (lowest_depth : ℕ) :
    XF × Option T3Action × ℕ :=
  match moves with
  | [] => (best_score, optimal_move, lowest_depth)
  | (action, child) :: rest =>
    let r := minimax child false (node_depth + 1)
    let c := best_choice_max r.1 best_score action optimal_move r.2.2
      lowest_depth
    minimaxMaxLoop rest node_depth c.1 c.2.1 c.2.2
termination_by T3State.sizeL moves
decreasing_by
all_goals simp [T3State.sizeL] <;> omega

/-- The exhaustive min loop: every child is evaluated, combination as in
`alphabeta`, no window and no break. -/
def minimaxMinLoop (moves : List (T3Action × T3State)) (node_depth : ℕ)
    (best_score : XF) (optimal_move : Option T3Action) (lowest_depth : ℕ) :
    XF × Option T3Action × ℕ :=
  match moves with
  | [] => (best_score, optimal_move, lowest_depth)
  | (action, child) :: rest =>
    let r := minimax child true (node_depth + 1)
    let c := best_choice_min r.1 best_score action optimal_move r.2.2
      lowest_depth
    minimaxMinLoop rest node_depth c.1 c.2.1 c.2.2
termination_by T3State.sizeL moves
decreasing_by
all_goals simp [T3State.sizeL] <;> omega
end

mutual
/-- The state-abstraction contract on the observable tree: every non-terminal
state enumerates at least one transition (and, the tree being an inductive
object, every play reaches a terminal in finitely many plies). -/
def T3State.wf : T3State → Bool
  | .mk w t ts => (w || t || !ts.isEmpty) && T3State.wfL ts

/-- The contract, for every state of a transition list. -/
def T3State.wfL : List (T3Action × T3State) → Bool
  | [] => true
  | (_, s) :: rest => T3State.wf s && T3State.wfL rest
end

mutual
/-- `reaches s mx u k` holds when, starting at `s` with the player to move
being the maximizer iff `mx`, some sequence of `k` transitions ends at the
first-reached terminal whose utility — `1/2` for a tie, and for a win `1` at a
minimizing node and `0` at a maximizing node — is `u`. -/
def reaches (s : T3State) (mx : Bool) (u : XF) : ℕ → Bool
  | 0 =>
    if s.is_tie then decide (u = XF.fin (1/2))
    else if s.is_win then
      if mx then decide (u = XF.fin 0) else decide (u = XF.fin 1)
    else false
  | k + 1 =>
    !s.is_tie && !s.is_win && reachesAny s.get_transitions (!mx) u k

/-- Some state of the list reaches a terminal of utility `u` in `k` plies. -/
def reachesAny (l : List (T3Action × T3State)) (mx : Bool) (u : XF) (k : ℕ) :
    Bool :=
  match l with
  | [] => false
  | (_, c) :: rest => reaches c mx u k || reachesAny rest mx u k
end

mutual
/-- Height of a game tree: the maximal number of plies to a leaf, an upper
bound on the recursion depth of the search. -/
def T3State.heightS : T3State → ℕ
  | .mk _ _ ts => 1 + T3State.heightL ts

/-- Maximal height of the states of a transition list. -/
def T3State.heightL : List (T3Action × T3State) → ℕ
  | [] => 0
  | (_, s) :: rest => max (T3State.heightS s) (T3State.heightL rest)
end

mutual
/-- `alphabeta` with an explicit recursion-depth budget: returns `none` when
the budget is exhausted, and otherwise performs exactly the computation of
`alphabeta`.  Used to express that the search terminates within a recursion
depth bounded by the height of the game tree. -/
def alphabetaFuel (fuel : ℕ) (state : T3State) (a B : XF)
    (is_max is_min : Bool) (node_depth : ℕ) :
    Option (XF × Option T3Action × ℕ) :=
  match fuel with
  | 0 => none
  | fuel + 1 =>
    if state.is_tie then some (.fin (1/2), none, node_depth)
    else if state.is_win then
      if !is_max && is_min then some (.fin 1, none, node_depth)
      else some (.fin 0, none, node_depth)
    else if is_max && !is_min then
      alphabetaFuelMaxLoop fuel state.get_transitions a B node_depth .ninf
        none node_depth
    else if is_min && !is_max then
      alphabetaFuelMinLoop fuel state.get_transitions a B node_depth .pinf
        none node_depth
    else some (.fin 0, none, node_depth)

/-- Budgeted max loop. -/
def alphabetaFuelMaxLoop (fuel : ℕ) (moves : List (T3Action × T3State))
    (a B : XF) (node_depth : ℕ) (best_score : XF)
    (optimal_move : Option T3Action) (lowest_depth : ℕ) :
    Option (XF × Option T3Action × ℕ) :=
  match moves with
  | [] => some (best_score, optimal_move, lowest_depth)
  | (action, child) :: rest =>
    match alphabetaFuel fuel child a B false true (node_depth + 1) with
    | none => none
    | some r =>
      let c := best_choice_max r.1 best_score action optimal_move r.2.2
        lowest_depth
      let a' := XF.pmax a c.1
      if XF.le B a' then some c
      else alphabetaFuelMaxLoop fuel rest a' B node_depth c.1 c.2.1 c.2.2

/-- Budgeted min loop. -/
def alphabetaFuelMinLoop (fuel : ℕ) (moves : List (T3Action × T3State))
    (a B : XF) (node_depth : ℕ) (best_score : XF)
    (optimal_move : Option T3Action) (lowest_depth : ℕ) :
    Option (XF × Option T3Action × ℕ) :=
  match moves with
  | [] => some (best_score, optimal_move, lowest_depth)
  | (action, child) :: rest =>
    match alphabetaFuel fuel child a B true false (node_depth + 1) with
    | none => none
    | some r =>
      let c := best_choice_min r.1 best_score action optimal_move r.2.2
        lowest_depth
      let B' := XF.pmin B c.1
      if XF.le B' a then some c
      else alphabetaFuelMinLoop fuel rest a B' node_depth c.1 c.2.1 c.2.2
end

mutual
/-- `alphabeta` with the two redundant boolean flags collapsed into a single
"maximizing" role flag, as the spec's design note prescribes: the
inconsistent-flags fall-through branch no longer exists, by construction. -/
def alphabetaR (state : T3State) (a B : XF) (maximizing : Bool)
    (node_depth : ℕ) : XF × Option T3Action × ℕ :=
  if state.is_tie then (.fin (1/2), none, node_depth)
  else if state.is_win then
    if !maximizing then (.fin 1, none, node_depth)
    else (.fin 0, none, node_depth)
  else if maximizing then
    alphabetaRMaxLoop state.get_transitions a B node_depth .ninf none
      node_depth
  else
    alphabetaRMinLoop state.get_transitions a B node_depth .pinf none
      node_depth
termination_by state.sizeS
decreasing_by
all_goals cases state with
  | mk w t ts => simp [T3State.sizeS, T3State.sizeL, T3State.get_transitions]

/-- Max loop of the single-role search. -/
def alphabetaRMaxLoop (moves : List (T3Action × T3State)) (a B : XF)
    (node_depth : ℕ) (best_score : XF) (optimal_move : Option T3Action)
    (lowest_depth : ℕ) : XF × Option T3Action × ℕ :=
  match moves with
  | [] => (best_score, optimal_move, lowest_depth)
  | (action, child) :: rest =>
    let r := alphabetaR child a B false (node_depth + 1)
    let c := best_choice_max r.1 best_score action optimal_move r.2.2
      lowest_depth
    let a' := XF.pmax a c.1
    if XF.le B a' then c
    else alphabetaRMaxLoop rest a' B node_depth c.1 c.2.1 c.2.2
termination_by T3State.sizeL moves
decreasing_by
all_goals simp [T3State.sizeL] <;> omega

/-- Min loop of the single-role search. -/
def alphabetaRMinLoop (moves : List (T3Action × T3State)) (a B : XF)
    (node_depth : ℕ) (best_score : XF) (optimal_move : Option T3Action)
    (lowest_depth : ℕ) : XF × Option T3Action × ℕ :=
  match moves with
  | [] => (best_score, optimal_move, lowest_depth)
  | (action, child) :: rest =>
    let r := alphabetaR child a B true (node_depth + 1)
    let c := best_choice_min r.1 best_score action optimal_move r.2.2
      lowest_depth
    let B' := XF.pmin B c.1
    if XF.le B' a then c
    else alphabetaRMinLoop rest a B' node_depth c.1 c.2.1 c.2.2
termination_by T3State.sizeL moves
decreasing_by
all_goals simp [T3State.sizeL] <;> omega
end

/-- The exhaustive minimax value of a max node's children list, folded from
`init` with Python's `max`. -/
def maxValsFrom (node_depth : ℕ) (l : List (T3Action × T3State)) (init : XF) :
    XF :=
  l.foldl (fun b p => max b (minimax p.2 false (node_depth + 1)).1) init

/-- The exhaustive minimax value of a min node's children list, folded from
`init` with Python's `min`. -/
def minValsFrom (node_depth : ℕ) (l : List (T3Action × T3State)) (init : XF) :
    XF :=
  l.foldl (fun b p => min b (minimax p.2 true (node_depth + 1)).1) init

/-- A terminal tie state. -/
def tieS : T3State := .mk false true []

/-- A terminal won state. -/
def winS : T3State := .mk true false []

/-- First root child of the pruning counterexample: a min node whose only
continuation is forced, ending in a tie three plies below the root. -/
def cexChild1 : T3State :=
  .mk false false [(⟨0, 1, 0⟩, .mk false false [(⟨0, 2, 0⟩, tieS)])]

/-- Second root child of the pruning counterexample: a min node offering the
opponent a tie in one ply and a win in one ply; its true value is `0`, but
under the narrowed window the search prunes after seeing the tie and reports
`1/2` with a shallow depth. -/
def cexChild2 : T3State :=
  .mk false false [(⟨0, 1, 0⟩, tieS), (⟨0, 2, 0⟩, winS)]

/-- Root of the pruning counterexample: a max node with two children of
pruned value `1/2`; pruning makes the second child tie at a smaller reported
depth, flipping the depth tie-break at the root. -/
def cexRoot : T3State := .mk false false [(⟨0, 0, 0⟩, cexChild1), (⟨1, 0, 0⟩, cexChild2)]

namespace XF

theorem lt_iff {x y : XF} : lt x y = true ↔ x < y := Iff.rfl

theorem le_iff {x y : XF} : le x y = true ↔ x ≤ y := Iff.rfl

theorem lt_eq_false_iff {x y : XF} : lt x y = false ↔ ¬ x < y := by
  rw [← lt_iff]; simp

theorem le_eq_false_iff {x y : XF} : le x y = false ↔ ¬ x ≤ y := by
  rw [← le_iff]; simp

theorem pmax_eq_max (x y : XF) : pmax x y = max x y := by
  unfold pmax
  by_cases hb : XF.lt x y = true
  · rw [if_pos hb, max_eq_right (le_of_lt (lt_iff.1 hb))]
  · have hx : ¬ x < y := by rwa [← lt_iff]
    rw [if_neg hb, max_eq_left (not_lt.1 hx)]

theorem pmin_eq_min (x y : XF) : pmin x y = min x y := by
  unfold pmin
  by_cases hb : XF.lt y x = true
  · rw [if_pos hb, min_eq_right (le_of_lt (lt_iff.1 hb))]
  · have hx : ¬ y < x := by rwa [← lt_iff]
    rw [if_neg hb, min_eq_left (not_lt.1 hx)]

theorem ninf_le (x : XF) : ninf ≤ x := by
  cases x <;> simp [← le_iff, le, lt]

theorem le_pinf (x : XF) : x ≤ pinf := by
  cases x <;> simp [← le_iff, le, lt]

end XF

theorem isUtil_ninf_lt {u : XF} (h : isUtil u = true) : XF.ninf < u := by
  rcases u with _ | q | _ <;> simp_all [isUtil, ← XF.lt_iff, XF.lt]

theorem isUtil_lt_pinf {u : XF} (h : isUtil u = true) : u < XF.pinf := by
  rcases u with _ | q | _ <;> simp_all [isUtil, ← XF.lt_iff, XF.lt]

theorem T3State.sizeL_get_transitions_lt (s : T3State) :
    T3State.sizeL s.get_transitions < s.sizeS := by
  cases s with
  | mk w t ts => simp [T3State.sizeS, T3State.sizeL, T3State.get_transitions]

theorem T3State.wf_parts {w t : Bool} {ts : List (T3Action × T3State)}
    (h : T3State.wf (.mk w t ts) = true) :
    (w || t || !ts.isEmpty) = true ∧ T3State.wfL ts = true := by
  simpa [T3State.wf] using h

theorem T3State.wf_nonempty {s : T3State} (h : s.wf = true)
    (ht : s.is_tie = false) (hw : s.is_win = false) :
    s.get_transitions ≠ [] := by
  cases s with
  | mk w t ts =>
    simp only [T3State.is_tie] at ht
    simp only [T3State.is_win] at hw
    subst ht hw
    have h1 := (T3State.wf_parts h).1
    simp only [Bool.false_or] at h1
    simp only [T3State.get_transitions]
    intro hnil
    rw [hnil] at h1
    simp at h1

theorem T3State.wfL_mem : ∀ (ts : List (T3Action × T3State)),
    T3State.wfL ts = true → ∀ p ∈ ts, p.2.wf = true
  | [], _, p, hp => absurd hp (List.not_mem_nil p)
  | (q1, q2) :: rest, h, p, hp => by
    have h' : T3State.wf q2 = true ∧ T3State.wfL rest = true := by
      simpa [T3State.wfL] using h
    rcases List.mem_cons.1 hp with heq | hp'
    · rw [heq]; exact h'.1
    · exact T3State.wfL_mem rest h'.2 p hp'

theorem T3State.wf_child {s : T3State} (h : s.wf = true)
    {p : T3Action × T3State} (hp : p ∈ s.get_transitions) : p.2.wf = true := by
  cases s with
  | mk w t ts =>
    exact T3State.wfL_mem ts (T3State.wf_parts h).2 p hp

theorem T3State.sizeS_mem : ∀ (ts : List (T3Action × T3State)), ∀ p ∈ ts,
    p.2.sizeS ≤ T3State.sizeL ts
  | [], p, hp => absurd hp (List.not_mem_nil p)
  | (q1, q2) :: rest, p, hp => by
    rcases List.mem_cons.1 hp with heq | hp'
    · rw [heq]; simp [T3State.sizeL]; omega
    · have := T3State.sizeS_mem rest p hp'
      simp [T3State.sizeL]; omega

theorem T3State.sizeS_child {s : T3State} {p : T3Action × T3State}
    (hp : p ∈ s.get_transitions) : p.2.sizeS < s.sizeS := by
  cases s with
  | mk w t ts =>
    have := T3State.sizeS_mem ts p hp
    simp only [T3State.sizeS]
    omega
theorem best_choice_max_fst (u best : XF) (act : T3Action)
    (opt : Option T3Action) (d low : ℕ) :
    (best_choice_max u best act opt d low).1 = max best u := by
  unfold best_choice_max
  split
  · rename_i h1
    exact (max_eq_right (XF.lt_iff.1 h1).le).symm
  · rename_i h1
    have hle : u ≤ best := not_lt.1 (fun hc => h1 (XF.lt_iff.2 hc))
    split
    · rename_i h2
      split
      · simp [h2, max_eq_left hle]
      · split <;> simp [max_eq_left hle]
    · simp [max_eq_left hle]

theorem best_choice_min_fst (u best : XF) (act : T3Action)
    (opt : Option T3Action) (d low : ℕ) :
    (best_choice_min u best act opt d low).1 = min best u := by
  unfold best_choice_min
  split
  · rename_i h1
    exact (min_eq_right (XF.lt_iff.1 h1).le).symm
  · rename_i h1
    have hle : best ≤ u := not_lt.1 (fun hc => h1 (XF.lt_iff.2 hc))
    split
    · rename_i h2
      split
      · simp [h2, min_eq_left hle]
      · split <;> simp [min_eq_left hle]
    · simp [min_eq_left hle]

theorem best_choice_max_pair (u best : XF) (act : T3Action)
    (opt : Option T3Action) (d low : ℕ) :
    (let c := best_choice_max u best act opt d low
     (c.1 = u ∧ c.2.2 = d) ∨ (c.1 = best ∧ c.2.2 = low)) := by
  unfold best_choice_max
  split
  · exact Or.inl ⟨rfl, rfl⟩
  · split
    · split
      · exact Or.inl ⟨rfl, rfl⟩
      · split
        · exact Or.inr ⟨rfl, rfl⟩
        · exact Or.inr ⟨rfl, rfl⟩
    · exact Or.inr ⟨rfl, rfl⟩

theorem best_choice_min_pair (u best : XF) (act : T3Action)
    (opt : Option T3Action) (d low : ℕ) :
    (let c := best_choice_min u best act opt d low
     (c.1 = u ∧ c.2.2 = d) ∨ (c.1 = best ∧ c.2.2 = low)) := by
  unfold best_choice_min
  split
  · exact Or.inl ⟨rfl, rfl⟩
  · split
    · split
      · exact Or.inl ⟨rfl, rfl⟩
      · split
        · exact Or.inr ⟨rfl, rfl⟩
        · exact Or.inr ⟨rfl, rfl⟩
    · exact Or.inr ⟨rfl, rfl⟩

theorem best_choice_max_action (u best : XF) (act : T3Action)
    (opt : Option T3Action) (d low : ℕ) :
    (best_choice_max u best act opt d low).2.1 = some act ∨
    (best_choice_max u best act opt d low).2.1 = opt := by
  unfold best_choice_max
  split
  · exact Or.inl rfl
  · split
    · split
      · exact Or.inl rfl
      · split
        · exact Or.inl rfl
        · exact Or.inr rfl
    · exact Or.inr rfl

theorem best_choice_min_action (u best : XF) (act : T3Action)
    (opt : Option T3Action) (d low : ℕ) :
    (best_choice_min u best act opt d low).2.1 = some act ∨
    (best_choice_min u best act opt d low).2.1 = opt := by
  unfold best_choice_min
  split
  · exact Or.inl rfl
  · split
    · split
      · exact Or.inl rfl
      · split
        · exact Or.inl rfl
        · exact Or.inr rfl
    · exact Or.inr rfl

theorem best_choice_max_of_lt {u best : XF} (h : best < u) (act : T3Action)
    (opt : Option T3Action) (d low : ℕ) :
    best_choice_max u best act opt d low = (u, some act, d) := by
  unfold best_choice_max
  rw [if_pos (XF.lt_iff.2 h)]

theorem best_choice_min_of_lt {u best : XF} (h : u < best) (act : T3Action)
    (opt : Option T3Action) (d low : ℕ) :
    best_choice_min u best act opt d low = (u, some act, d) := by
  unfold best_choice_min
  rw [if_pos (XF.lt_iff.2 h)]

theorem alphabetaMaxLoop_nil (a B : XF) (nd : ℕ) (best : XF)
    (opt : Option T3Action) (low : ℕ) :
    alphabetaMaxLoop [] a B nd best opt low = (best, opt, low) := by
  rw [alphabetaMaxLoop]

theorem alphabetaMaxLoop_cons (act : T3Action) (child : T3State)
    (rest : List (T3Action × T3State)) (a B : XF) (nd : ℕ) (best : XF)
    (opt : Option T3Action) (low : ℕ) :
    alphabetaMaxLoop ((act, child) :: rest) a B nd best opt low =
      (let r := alphabeta child a B false true (nd + 1)
       let c := best_choice_max r.1 best act opt r.2.2 low
       let a' := XF.pmax a c.1
       if XF.le B a' then c
       else alphabetaMaxLoop rest a' B nd c.1 c.2.1 c.2.2) := by
  rw [alphabetaMaxLoop]

theorem alphabetaMinLoop_nil (a B : XF) (nd : ℕ) (best : XF)
    (opt : Option T3Action) (low : ℕ) :
    alphabetaMinLoop [] a B nd best opt low = (best, opt, low) := by
  rw [alphabetaMinLoop]

theorem alphabetaMinLoop_cons (act : T3Action) (child : T3State)
    (rest : List (T3Action × T3State)) (a B : XF) (nd : ℕ) (best : XF)
    (opt : Option T3Action) (low : ℕ) :
    alphabetaMinLoop ((act, child) :: rest) a B nd best opt low =
      (let r := alphabeta child a B true false (nd + 1)
       let c := best_choice_min r.1 best act opt r.2.2 low
       let B' := XF.pmin B c.1
       if XF.le B' a then c
       else alphabetaMinLoop rest a B' nd c.1 c.2.1 c.2.2) := by
  rw [alphabetaMinLoop]

theorem minimaxMaxLoop_nil (nd : ℕ) (best : XF) (opt : Option T3Action)
    (low : ℕ) :
    minimaxMaxLoop [] nd best opt low = (best, opt, low) := by
  rw [minimaxMaxLoop]

theorem minimaxMaxLoop_cons (act : T3Action) (child : T3State)
    (rest : List (T3Action × T3State)) (nd : ℕ) (best : XF)
    (opt : Option T3Action) (low : ℕ) :
    minimaxMaxLoop ((act, child) :: rest) nd best opt low =
      (let r := minimax child false (nd + 1)
       let c := best_choice_max r.1 best act opt r.2.2 low
       minimaxMaxLoop rest nd c.1 c.2.1 c.2.2) := by
  rw [minimaxMaxLoop]

theorem minimaxMinLoop_nil (nd : ℕ) (best : XF) (opt : Option T3Action)
    (low : ℕ) :
    minimaxMinLoop [] nd best opt low = (best, opt, low) := by
  rw [minimaxMinLoop]

theorem minimaxMinLoop_cons (act : T3Action) (child : T3State)
    (rest : List (T3Action × T3State)) (nd : ℕ) (best : XF)
    (opt : Option T3Action) (low : ℕ) :
    minimaxMinLoop ((act, child) :: rest) nd best opt low =
      (let r := minimax child true (nd + 1)
       let c := best_choice_min r.1 best act opt r.2.2 low
       minimaxMinLoop rest nd c.1 c.2.1 c.2.2) := by
  rw [minimaxMinLoop]

theorem alphabetaRMaxLoop_nil (a B : XF) (nd : ℕ) (best : XF)
    (opt : Option T3Action) (low : ℕ) :
    alphabetaRMaxLoop [] a B nd best opt low = (best, opt, low) := by
  rw [alphabetaRMaxLoop]

theorem alphabetaRMaxLoop_cons (act : T3Action) (child : T3State)
    (rest : List (T3Action × T3State)) (a B : XF) (nd : ℕ) (best : XF)
    (opt : Option T3Action) (low : ℕ) :
    alphabetaRMaxLoop ((act, child) :: rest) a B nd best opt low =
      (let r := alphabetaR child a B false (nd + 1)
       let c := best_choice_max r.1 best act opt r.2.2 low
       let a' := XF.pmax a c.1
       if XF.le B a' then c
       else alphabetaRMaxLoop rest a' B nd c.1 c.2.1 c.2.2) := by
  rw [alphabetaRMaxLoop]

theorem alphabetaRMinLoop_nil (a B : XF) (nd : ℕ) (best : XF)
    (opt : Option T3Action) (low : ℕ) :
    alphabetaRMinLoop [] a B nd best opt low = (best, opt, low) := by
  rw [alphabetaRMinLoop]

theorem alphabetaRMinLoop_cons (act : T3Action) (child : T3State)
    (rest : List (T3Action × T3State)) (a B : XF) (nd : ℕ) (best : XF)
    (opt : Option T3Action) (low : ℕ) :
    alphabetaRMinLoop ((act, child) :: rest) a B nd best opt low =
      (let r := alphabetaR child a B true (nd + 1)
       let c := best_choice_min r.1 best act opt r.2.2 low
       let B' := XF.pmin B c.1
       if XF.le B' a then c
       else alphabetaRMinLoop rest a B' nd c.1 c.2.1 c.2.2) := by
  rw [alphabetaRMinLoop]

theorem reaches_zero (s : T3State) (mx : Bool) (u : XF) :
    reaches s mx u 0 =
      (if s.is_tie then decide (u = XF.fin (1/2))
       else if s.is_win then
         if mx then decide (u = XF.fin 0) else decide (u = XF.fin 1)
       else false) := by
  rw [reaches]

theorem reaches_succ (s : T3State) (mx : Bool) (u : XF) (k : ℕ) :
    reaches s mx u (k + 1) =
      (!s.is_tie && !s.is_win && reachesAny s.get_transitions (!mx) u k) := by
  rw [reaches]

theorem reachesAny_nil (mx : Bool) (u : XF) (k : ℕ) :
    reachesAny [] mx u k = false := by
  rw [reachesAny]

theorem reachesAny_cons (act : T3Action) (c : T3State)
    (rest : List (T3Action × T3State)) (mx : Bool) (u : XF) (k : ℕ) :
    reachesAny ((act, c) :: rest) mx u k =
      (reaches c mx u k || reachesAny rest mx u k) := by
  rw [reachesAny]

theorem alphabetaMaxLoop_Q (Q : XF → ℕ → Prop) (B : XF) (nd : ℕ) :
    ∀ (moves : List (T3Action × T3State)) (a best : XF)
      (opt : Option T3Action) (low : ℕ),
    (∀ p ∈ moves, ∀ a' : XF,
        isUtil (alphabeta p.2 a' B false true (nd + 1)).1 = true ∧
        Q (alphabeta p.2 a' B false true (nd + 1)).1
          (alphabeta p.2 a' B false true (nd + 1)).2.2) →
    (Q best low ∨ (best = XF.ninf ∧ moves ≠ [])) →
    Q (alphabetaMaxLoop moves a B nd best opt low).1
      (alphabetaMaxLoop moves a B nd best opt low).2.2
  | [], a, best, opt, low, hch, hinv => by
    rw [alphabetaMaxLoop_nil]
    rcases hinv with h | ⟨_, h⟩
    · exact h
    · exact absurd rfl h
  | (act, child) :: rest, a, best, opt, low, hch, hinv => by
    have hr := hch (act, child) (List.mem_cons_self _ _) a
    rw [alphabetaMaxLoop_cons]
    simp only
    have hc : Q (best_choice_max (alphabeta child a B false true (nd + 1)).1
        best act opt (alphabeta child a B false true (nd + 1)).2.2 low).1
        (best_choice_max (alphabeta child a B false true (nd + 1)).1
        best act opt (alphabeta child a B false true (nd + 1)).2.2 low).2.2 := by
      rcases hinv with hQ | ⟨hninf, _⟩
      · rcases best_choice_max_pair (alphabeta child a B false true (nd + 1)).1
          best act opt (alphabeta child a B false true (nd + 1)).2.2 low with
          ⟨h1, h2⟩ | ⟨h1, h2⟩
        · rw [h1, h2]; exact hr.2
        · rw [h1, h2]; exact hQ
      · rw [hninf, best_choice_max_of_lt (isUtil_ninf_lt hr.1)]
        exact hr.2
    split
    · exact hc
    · exact alphabetaMaxLoop_Q Q B nd rest _ _ _ _
        (fun p hp a' => hch p (List.mem_cons_of_mem _ hp) a') (Or.inl hc)

theorem alphabetaMinLoop_Q (Q : XF → ℕ → Prop) (a : XF) (nd : ℕ) :
    ∀ (moves : List (T3Action × T3State)) (B best : XF)
      (opt : Option T3Action) (low : ℕ),
    (∀ p ∈ moves, ∀ B' : XF,
        isUtil (alphabeta p.2 a B' true false (nd + 1)).1 = true ∧
        Q (alphabeta p.2 a B' true false (nd + 1)).1
          (alphabeta p.2 a B' true false (nd + 1)).2.2) →
    (Q best low ∨ (best = XF.pinf ∧ moves ≠ [])) →
    Q (alphabetaMinLoop moves a B nd best opt low).1
      (alphabetaMinLoop moves a B nd best opt low).2.2
  | [], B, best, opt, low, hch, hinv => by
    rw [alphabetaMinLoop_nil]
    rcases hinv with h | ⟨_, h⟩
    · exact h
    · exact absurd rfl h
  | (act, child) :: rest, B, best, opt, low, hch, hinv => by
    have hr := hch (act, child) (List.mem_cons_self _ _) B
    rw [alphabetaMinLoop_cons]
    simp only
    have hc : Q (best_choice_min (alphabeta child a B true false (nd + 1)).1
        best act opt (alphabeta child a B true false (nd + 1)).2.2 low).1
        (best_choice_min (alphabeta child a B true false (nd + 1)).1
        best act opt (alphabeta child a B true false (nd + 1)).2.2 low).2.2 := by
      rcases hinv with hQ | ⟨hpinf, _⟩
      · rcases best_choice_min_pair (alphabeta child a B true false (nd + 1)).1
          best act opt (alphabeta child a B true false (nd + 1)).2.2 low with
          ⟨h1, h2⟩ | ⟨h1, h2⟩
        · rw [h1, h2]; exact hr.2
        · rw [h1, h2]; exact hQ
      · rw [hpinf, best_choice_min_of_lt (isUtil_lt_pinf hr.1)]
        exact hr.2
    split
    · exact hc
    · exact alphabetaMinLoop_Q Q a nd rest _ _ _ _
        (fun p hp B' => hch p (List.mem_cons_of_mem _ hp) B') (Or.inl hc)

theorem T3State.sizeS_pos (s : T3State) : 1 ≤ s.sizeS := by
  cases s with
  | mk w t ts => simp [T3State.sizeS]

theorem alphabeta_util_aux : ∀ (n : ℕ) (s : T3State), s.sizeS ≤ n →
    s.wf = true → ∀ (a B : XF) (mx : Bool) (nd : ℕ),
    isUtil (alphabeta s a B mx (!mx) nd).1 = true := by
  intro n
  induction n with
  | zero =>
    intro s hs
    have := T3State.sizeS_pos s
    omega
  | succ n ih =>
    intro s hs hwf a B mx nd
    cases ht : s.is_tie with
    | true =>
      rw [alphabeta, if_pos ht]
      norm_num [isUtil]
    | false =>
      cases hw : s.is_win with
      | true =>
        rw [alphabeta, if_neg (by simp [ht]), if_pos hw]
        cases mx <;> norm_num [isUtil]
      | false =>
        have hts : s.get_transitions ≠ [] := T3State.wf_nonempty hwf ht hw
        have hchild : ∀ p ∈ s.get_transitions, ∀ (a' B' : XF) (mx' : Bool)
            (nd' : ℕ), isUtil (alphabeta p.2 a' B' mx' (!mx') nd').1 = true := by
          intro p hp a' B' mx' nd'
          have h1 := T3State.sizeS_child hp
          exact ih p.2 (by omega) (T3State.wf_child hwf hp) a' B' mx' nd'
        cases mx with
        | true =>
          rw [alphabeta, if_neg (by simp [ht]), if_neg (by simp [hw]),
            if_pos (by decide)]
          exact alphabetaMaxLoop_Q (fun u d => isUtil u = true) B nd
            s.get_transitions a .ninf none nd
            (fun p hp a' =>
              ⟨hchild p hp a' B false (nd + 1), hchild p hp a' B false (nd + 1)⟩)
            (Or.inr ⟨rfl, hts⟩)
        | false =>
          rw [alphabeta, if_neg (by simp [ht]), if_neg (by simp [hw]),
            if_neg (by decide), if_pos (by decide)]
          exact alphabetaMinLoop_Q (fun u d => isUtil u = true) a nd
            s.get_transitions B .pinf none nd
            (fun p hp B' =>
              ⟨hchild p hp a B' true (nd + 1), hchild p hp a B' true (nd + 1)⟩)
            (Or.inr ⟨rfl, hts⟩)

theorem alphabetaMaxLoop_some (B : XF) (nd : ℕ) :
    ∀ (moves : List (T3Action × T3State)) (a best : XF)
      (opt : Option T3Action) (low : ℕ),
    (∀ p ∈ moves, ∀ a' : XF,
        isUtil (alphabeta p.2 a' B false true (nd + 1)).1 = true) →
    (opt.isSome = true ∨ (best = XF.ninf ∧ moves ≠ [])) →
    (alphabetaMaxLoop moves a B nd best opt low).2.1.isSome = true
  | [], a, best, opt, low, hch, hinv => by
    rw [alphabetaMaxLoop_nil]
    rcases hinv with h | ⟨_, h⟩
    · exact h
    · exact absurd rfl h
  | (act, child) :: rest, a, best, opt, low, hch, hinv => by
    have hu := hch (act, child) (List.mem_cons_self _ _) a
    rw [alphabetaMaxLoop_cons]
    simp only
    have hc : (best_choice_max (alphabeta child a B false true (nd + 1)).1
        best act opt (alphabeta child a B false true (nd + 1)).2.2
        low).2.1.isSome = true := by
      rcases hinv with hQ | ⟨hninf, _⟩
      · rcases best_choice_max_action (alphabeta child a B false true (nd + 1)).1
          best act opt (alphabeta child a B false true (nd + 1)).2.2 low with
          h1 | h1
        · rw [h1]; rfl
        · rw [h1]; exact hQ
      · rw [hninf, best_choice_max_of_lt (isUtil_ninf_lt hu)]
        rfl
    split
    · exact hc
    · exact alphabetaMaxLoop_some B nd rest _ _ _ _
        (fun p hp a' => hch p (List.mem_cons_of_mem _ hp) a') (Or.inl hc)

theorem reachesAny_of_mem : ∀ (ts : List (T3Action × T3State)),
    ∀ p ∈ ts, ∀ (mx : Bool) (u : XF) (k : ℕ),
    reaches p.2 mx u k = true → reachesAny ts mx u k = true
  | [], p, hp, _, _, _, _ => absurd hp (List.not_mem_nil p)
  | (q1, q2) :: rest, p, hp, mx, u, k, h => by
    rw [reachesAny_cons]
    rcases List.mem_cons.1 hp with heq | hp'
    · rw [heq] at h
      simp [h]
    · simp [reachesAny_of_mem rest p hp' mx u k h]

theorem alphabeta_depth_aux : ∀ (n : ℕ) (s : T3State), s.sizeS ≤ n →
    s.wf = true → ∀ (a B : XF) (mx : Bool) (nd : ℕ),
    ∃ k, (alphabeta s a B mx (!mx) nd).2.2 = nd + k ∧
      reaches s mx ((alphabeta s a B mx (!mx) nd).1) k = true := by
  intro n
  induction n with
  | zero =>
    intro s hs
    have := T3State.sizeS_pos s
    omega
  | succ n ih =>
    intro s hs hwf a B mx nd
    cases ht : s.is_tie with
    | true =>
      refine ⟨0, ?_, ?_⟩
      · rw [alphabeta, if_pos ht]
        rfl
      · rw [alphabeta, if_pos ht, reaches_zero, if_pos ht]
        simp
    | false =>
      cases hw : s.is_win with
      | true =>
        refine ⟨0, ?_, ?_⟩
        · rw [alphabeta, if_neg (by simp [ht]), if_pos hw]
          cases mx <;> rfl
        · rw [alphabeta, if_neg (by simp [ht]), if_pos hw, reaches_zero,
            if_neg (by simp [ht]), if_pos hw]
          cases mx <;> simp
      | false =>
        have hts : s.get_transitions ≠ [] := T3State.wf_nonempty hwf ht hw
        have hchild : ∀ p ∈ s.get_transitions, ∀ (a' B' : XF) (mx' : Bool)
            (nd' : ℕ),
            isUtil (alphabeta p.2 a' B' mx' (!mx') nd').1 = true ∧
            ∃ k, (alphabeta p.2 a' B' mx' (!mx') nd').2.2 = nd' + k ∧
              reaches p.2 mx' ((alphabeta p.2 a' B' mx' (!mx') nd').1) k
                = true := by
          intro p hp a' B' mx' nd'
          have h1 := T3State.sizeS_child hp
          exact ⟨alphabeta_util_aux n p.2 (by omega) (T3State.wf_child hwf hp)
              a' B' mx' nd',
            ih p.2 (by omega) (T3State.wf_child hwf hp) a' B' mx' nd'⟩
        cases mx with
        | true =>
          rw [alphabeta, if_neg (by simp [ht]), if_neg (by simp [hw]),
            if_pos (by decide)]
          have := alphabetaMaxLoop_Q
            (fun u d => ∃ k, d = nd + k + 1 ∧
              reachesAny s.get_transitions false u k = true) B nd
            s.get_transitions a .ninf none nd
            (fun p hp a' => by
              obtain ⟨h1, k, h2, h3⟩ := hchild p hp a' B false (nd + 1)
              simp only [Bool.not_false] at h1 h2 h3
              exact ⟨h1, k, by omega, reachesAny_of_mem _ p hp false _ k h3⟩)
            (Or.inr ⟨rfl, hts⟩)
          obtain ⟨k, h2, h3⟩ := this
          refine ⟨k + 1, by omega, ?_⟩
          rw [reaches_succ]
          simp [ht, hw, h3]
        | false =>
          rw [alphabeta, if_neg (by simp [ht]), if_neg (by simp [hw]),
            if_neg (by decide), if_pos (by decide)]
          have := alphabetaMinLoop_Q
            (fun u d => ∃ k, d = nd + k + 1 ∧
              reachesAny s.get_transitions true u k = true) a nd
            s.get_transitions B .pinf none nd
            (fun p hp B' => by
              obtain ⟨h1, k, h2, h3⟩ := hchild p hp a B' true (nd + 1)
              simp only [Bool.not_true] at h1 h2 h3
              exact ⟨h1, k, by omega, reachesAny_of_mem _ p hp true _ k h3⟩)
            (Or.inr ⟨rfl, hts⟩)
          obtain ⟨k, h2, h3⟩ := this
          refine ⟨k + 1, by omega, ?_⟩
          rw [reaches_succ]
          simp [ht, hw, h3]

theorem alphabetaMaxLoop_eq_R : ∀ (moves : List (T3Action × T3State))
    (a B : XF) (nd : ℕ) (best : XF) (opt : Option T3Action) (low : ℕ),
    (∀ p ∈ moves, ∀ a' B' : XF,
      alphabeta p.2 a' B' false true (nd + 1) =
        alphabetaR p.2 a' B' false (nd + 1)) →
    alphabetaMaxLoop moves a B nd best opt low =
      alphabetaRMaxLoop moves a B nd best opt low
  | [], a, B, nd, best, opt, low, _ => by
    rw [alphabetaMaxLoop_nil, alphabetaRMaxLoop_nil]
  | (act, child) :: rest, a, B, nd, best, opt, low, hch => by
    rw [alphabetaMaxLoop_cons, alphabetaRMaxLoop_cons]
    simp only
    rw [hch (act, child) (List.mem_cons_self _ _) a B]
    split
    · rfl
    · exact alphabetaMaxLoop_eq_R rest _ _ _ _ _ _
        (fun p hp => hch p (List.mem_cons_of_mem _ hp))

theorem alphabetaMinLoop_eq_R : ∀ (moves : List (T3Action × T3State))
    (a B : XF) (nd : ℕ) (best : XF) (opt : Option T3Action) (low : ℕ),
    (∀ p ∈ moves, ∀ a' B' : XF,
      alphabeta p.2 a' B' true false (nd + 1) =
        alphabetaR p.2 a' B' true (nd + 1)) →
    alphabetaMinLoop moves a B nd best opt low =
      alphabetaRMinLoop moves a B nd best opt low
  | [], a, B, nd, best, opt, low, _ => by
    rw [alphabetaMinLoop_nil, alphabetaRMinLoop_nil]
  | (act, child) :: rest, a, B, nd, best, opt, low, hch => by
    rw [alphabetaMinLoop_cons, alphabetaRMinLoop_cons]
    simp only
    rw [hch (act, child) (List.mem_cons_self _ _) a B]
    split
    · rfl
    · exact alphabetaMinLoop_eq_R rest _ _ _ _ _ _
        (fun p hp => hch p (List.mem_cons_of_mem _ hp))

theorem alphabeta_eq_R_aux : ∀ (n : ℕ) (s : T3State), s.sizeS ≤ n →
    ∀ (a B : XF) (mx : Bool) (nd : ℕ),
    alphabeta s a B mx (!mx) nd = alphabetaR s a B mx nd := by
  intro n
  induction n with
  | zero =>
    intro s hs
    have := T3State.sizeS_pos s
    omega
  | succ n ih =>
    intro s hs a B mx nd
    have hch : ∀ p ∈ s.get_transitions, ∀ (a' B' : XF) (mx' : Bool),
        alphabeta p.2 a' B' mx' (!mx') (nd + 1) =
          alphabetaR p.2 a' B' mx' (nd + 1) := by
      intro p hp a' B' mx'
      have h1 := T3State.sizeS_child hp
      exact ih p.2 (by omega) a' B' mx' (nd + 1)
    cases ht : s.is_tie with
    | true => rw [alphabeta, if_pos ht, alphabetaR, if_pos ht]
    | false =>
      have htn : ¬ (s.is_tie = true) := by simp [ht]
      cases hw : s.is_win with
      | true =>
        cases mx with
        | true =>
          rw [alphabeta, if_neg htn, if_pos hw]
          rw [alphabetaR, if_neg htn, if_pos hw]
          rfl
        | false =>
          rw [alphabeta, if_neg htn, if_pos hw]
          rw [alphabetaR, if_neg htn, if_pos hw]
          rfl
      | false =>
        have hwn : ¬ (s.is_win = true) := by simp [hw]
        cases mx with
        | true =>
          rw [alphabeta, if_neg htn, if_neg hwn, if_pos (by decide)]
          rw [alphabetaR, if_neg htn, if_neg hwn, if_pos rfl]
          exact alphabetaMaxLoop_eq_R s.get_transitions a B nd .ninf none nd
            (fun p hp a' B' => by
              have := hch p hp a' B' false
              simpa using this)
        | false =>
          rw [alphabeta, if_neg htn, if_neg hwn, if_neg (by decide),
            if_pos (by decide)]
          rw [alphabetaR, if_neg htn, if_neg hwn, if_neg (by decide)]
          exact alphabetaMinLoop_eq_R s.get_transitions a B nd .pinf none nd
            (fun p hp a' B' => by
              have := hch p hp a' B' true
              simpa using this)

theorem T3State.heightS_pos (s : T3State) : 1 ≤ s.heightS := by
  cases s with
  | mk w t ts => simp [T3State.heightS]

theorem T3State.heightS_mem : ∀ (ts : List (T3Action × T3State)), ∀ p ∈ ts,
    p.2.heightS ≤ T3State.heightL ts
  | [], p, hp => absurd hp (List.not_mem_nil p)
  | (q1, q2) :: rest, p, hp => by
    rcases List.mem_cons.1 hp with heq | hp'
    · rw [heq]; simp [T3State.heightL]
    · have := T3State.heightS_mem rest p hp'
      simp [T3State.heightL]
      omega

theorem alphabetaFuel_succ (f : ℕ) (s : T3State) (a B : XF)
    (mx mn : Bool) (nd : ℕ) :
    alphabetaFuel (f + 1) s a B mx mn nd =
      (if s.is_tie then some (.fin (1/2), none, nd)
       else if s.is_win then
         if !mx && mn then some (.fin 1, none, nd)
         else some (.fin 0, none, nd)
       else if mx && !mn then
         alphabetaFuelMaxLoop f s.get_transitions a B nd .ninf none nd
       else if mn && !mx then
         alphabetaFuelMinLoop f s.get_transitions a B nd .pinf none nd
       else some (.fin 0, none, nd)) := by
  rw [alphabetaFuel]

theorem alphabetaFuelMaxLoop_nil (f : ℕ) (a B : XF) (nd : ℕ) (best : XF)
    (opt : Option T3Action) (low : ℕ) :
    alphabetaFuelMaxLoop f [] a B nd best opt low = some (best, opt, low) := by
  rw [alphabetaFuelMaxLoop]

theorem alphabetaFuelMaxLoop_cons (f : ℕ) (act : T3Action) (child : T3State)
    (rest : List (T3Action × T3State)) (a B : XF) (nd : ℕ) (best : XF)
    (opt : Option T3Action) (low : ℕ) :
    alphabetaFuelMaxLoop f ((act, child) :: rest) a B nd best opt low =
      (match alphabetaFuel f child a B false true (nd + 1) with
       | none => none
       | some r =>
         let c := best_choice_max r.1 best act opt r.2.2 low
         let a' := XF.pmax a c.1
         if XF.le B a' then some c
         else alphabetaFuelMaxLoop f rest a' B nd c.1 c.2.1 c.2.2) := by
  rw [alphabetaFuelMaxLoop]

theorem alphabetaFuelMinLoop_nil (f : ℕ) (a B : XF) (nd : ℕ) (best : XF)
    (opt : Option T3Action) (low : ℕ) :
    alphabetaFuelMinLoop f [] a B nd best opt low = some (best, opt, low) := by
  rw [alphabetaFuelMinLoop]

theorem alphabetaFuelMinLoop_cons (f : ℕ) (act : T3Action) (child : T3State)
    (rest : List (T3Action × T3State)) (a B : XF) (nd : ℕ) (best : XF)
    (opt : Option T3Action) (low : ℕ) :
    alphabetaFuelMinLoop f ((act, child) :: rest) a B nd best opt low =
      (match alphabetaFuel f child a B true false (nd + 1) with
       | none => none
       | some r =>
         let c := best_choice_min r.1 best act opt r.2.2 low
         let B' := XF.pmin B c.1
         if XF.le B' a then some c
         else alphabetaFuelMinLoop f rest a B' nd c.1 c.2.1 c.2.2) := by
  rw [alphabetaFuelMinLoop]

theorem alphabetaFuelMaxLoop_eq : ∀ (f : ℕ)
    (moves : List (T3Action × T3State)) (a B : XF) (nd : ℕ) (best : XF)
    (opt : Option T3Action) (low : ℕ),
    (∀ p ∈ moves, ∀ (a' B' : XF),
      alphabetaFuel f p.2 a' B' false true (nd + 1) =
        some (alphabeta p.2 a' B' false true (nd + 1))) →
    alphabetaFuelMaxLoop f moves a B nd best opt low =
      some (alphabetaMaxLoop moves a B nd best opt low)
  | f, [], a, B, nd, best, opt, low, _ => by
    rw [alphabetaFuelMaxLoop_nil, alphabetaMaxLoop_nil]
  | f, (act, child) :: rest, a, B, nd, best, opt, low, hch => by
    rw [alphabetaFuelMaxLoop_cons, alphabetaMaxLoop_cons,
      hch (act, child) (List.mem_cons_self _ _) a B]
    simp only
    split
    · rfl
    · exact alphabetaFuelMaxLoop_eq f rest _ _ _ _ _ _
        (fun p hp => hch p (List.mem_cons_of_mem _ hp))

theorem alphabetaFuelMinLoop_eq : ∀ (f : ℕ)
    (moves : List (T3Action × T3State)) (a B : XF) (nd : ℕ) (best : XF)
    (opt : Option T3Action) (low : ℕ),
    (∀ p ∈ moves, ∀ (a' B' : XF),
      alphabetaFuel f p.2 a' B' true false (nd + 1) =
        some (alphabeta p.2 a' B' true false (nd + 1))) →
    alphabetaFuelMinLoop f moves a B nd best opt low =
      some (alphabetaMinLoop moves a B nd best opt low)
  | f, [], a, B, nd, best, opt, low, _ => by
    rw [alphabetaFuelMinLoop_nil, alphabetaMinLoop_nil]
  | f, (act, child) :: rest, a, B, nd, best, opt, low, hch => by
    rw [alphabetaFuelMinLoop_cons, alphabetaMinLoop_cons,
      hch (act, child) (List.mem_cons_self _ _) a B]
    simp only
    split
    · rfl
    · exact alphabetaFuelMinLoop_eq f rest _ _ _ _ _ _
        (fun p hp => hch p (List.mem_cons_of_mem _ hp))

theorem alphabetaFuel_eq : ∀ (fuel : ℕ) (s : T3State), s.heightS ≤ fuel →
    ∀ (a B : XF) (mx mn : Bool) (nd : ℕ),
    alphabetaFuel fuel s a B mx mn nd = some (alphabeta s a B mx mn nd) := by
  intro fuel
  induction fuel with
  | zero =>
    intro s hs
    have := T3State.heightS_pos s
    omega
  | succ f ih =>
    intro s hs a B mx mn nd
    have hch : ∀ p ∈ s.get_transitions, ∀ (a' B' : XF) (mx' mn' : Bool)
        (nd' : ℕ), alphabetaFuel f p.2 a' B' mx' mn' nd' =
          some (alphabeta p.2 a' B' mx' mn' nd') := by
      intro p hp a' B' mx' mn' nd'
      have h1 : p.2.heightS ≤ T3State.heightL s.get_transitions := by
        cases s with
        | mk w t ts => exact T3State.heightS_mem ts p hp
      have h2 : 1 + T3State.heightL s.get_transitions ≤ f + 1 := by
        cases s with
        | mk w t ts =>
          simpa [T3State.heightS, T3State.get_transitions] using hs
      exact ih p.2 (by omega) a' B' mx' mn' nd'
    rw [alphabetaFuel_succ, alphabeta]
    cases ht : s.is_tie with
    | true => rfl
    | false =>
      cases hw : s.is_win with
      | true => cases mx <;> cases mn <;> rfl
      | false =>
        cases hmx : mx && !mn with
        | true =>
          exact alphabetaFuelMaxLoop_eq f s.get_transitions a B nd .ninf none
            nd (fun p hp a' B' => hch p hp a' B' false true (nd + 1))
        | false =>
          cases hmn : mn && !mx with
          | true =>
            exact alphabetaFuelMinLoop_eq f s.get_transitions a B nd .pinf
              none nd (fun p hp a' B' => hch p hp a' B' true false (nd + 1))
          | false => rfl

theorem maxValsFrom_nil (nd : ℕ) (init : XF) : maxValsFrom nd [] init = init :=
  rfl

theorem maxValsFrom_cons (nd : ℕ) (act : T3Action) (c : T3State)
    (rest : List (T3Action × T3State)) (init : XF) :
    maxValsFrom nd ((act, c) :: rest) init =
      maxValsFrom nd rest (max init (minimax c false (nd + 1)).1) := rfl

theorem minValsFrom_nil (nd : ℕ) (init : XF) : minValsFrom nd [] init = init :=
  rfl

theorem minValsFrom_cons (nd : ℕ) (act : T3Action) (c : T3State)
    (rest : List (T3Action × T3State)) (init : XF) :
    minValsFrom nd ((act, c) :: rest) init =
      minValsFrom nd rest (min init (minimax c true (nd + 1)).1) := rfl

theorem maxValsFrom_init (nd : ℕ) : ∀ (l : List (T3Action × T3State))
    (init : XF),
    maxValsFrom nd l init = max init (maxValsFrom nd l XF.ninf)
  | [], init => by
    rw [maxValsFrom_nil, maxValsFrom_nil, max_eq_left (XF.ninf_le init)]
  | (act, c) :: rest, init => by
    rw [maxValsFrom_cons, maxValsFrom_cons,
      maxValsFrom_init nd rest (max init (minimax c false (nd + 1)).1),
      maxValsFrom_init nd rest (max XF.ninf (minimax c false (nd + 1)).1),
      max_eq_right (XF.ninf_le _), max_assoc]

theorem minValsFrom_init (nd : ℕ) : ∀ (l : List (T3Action × T3State))
    (init : XF),
    minValsFrom nd l init = min init (minValsFrom nd l XF.pinf)
  | [], init => by
    rw [minValsFrom_nil, minValsFrom_nil, min_eq_left (XF.le_pinf init)]
  | (act, c) :: rest, init => by
    rw [minValsFrom_cons, minValsFrom_cons,
      minValsFrom_init nd rest (min init (minimax c true (nd + 1)).1),
      minValsFrom_init nd rest (min XF.pinf (minimax c true (nd + 1)).1),
      min_eq_right (XF.le_pinf _), min_assoc]

theorem minimaxMaxLoop_fst (nd : ℕ) : ∀ (moves : List (T3Action × T3State))
    (best : XF) (opt : Option T3Action) (low : ℕ),
    (minimaxMaxLoop moves nd best opt low).1 = maxValsFrom nd moves best
  | [], best, opt, low => by rw [minimaxMaxLoop_nil, maxValsFrom_nil]
  | (act, c) :: rest, best, opt, low => by
    rw [minimaxMaxLoop_cons, maxValsFrom_cons]
    simp only
    rw [minimaxMaxLoop_fst nd rest _ _ _, best_choice_max_fst]

theorem minimaxMinLoop_fst (nd : ℕ) : ∀ (moves : List (T3Action × T3State))
    (best : XF) (opt : Option T3Action) (low : ℕ),
    (minimaxMinLoop moves nd best opt low).1 = minValsFrom nd moves best
  | [], best, opt, low => by rw [minimaxMinLoop_nil, minValsFrom_nil]
  | (act, c) :: rest, best, opt, low => by
    rw [minimaxMinLoop_cons, minValsFrom_cons]
    simp only
    rw [minimaxMinLoop_fst nd rest _ _ _, best_choice_min_fst]

theorem minimax_val_max (s : T3State) (nd : ℕ) (ht : s.is_tie = false)
    (hw : s.is_win = false) :
    (minimax s true nd).1 = maxValsFrom nd s.get_transitions XF.ninf := by
  have htn : ¬ (s.is_tie = true) := by simp [ht]
  have hwn : ¬ (s.is_win = true) := by simp [hw]
  rw [minimax, if_neg htn, if_neg hwn, if_pos rfl, minimaxMaxLoop_fst]

theorem minimax_val_min (s : T3State) (nd : ℕ) (ht : s.is_tie = false)
    (hw : s.is_win = false) :
    (minimax s false nd).1 = minValsFrom nd s.get_transitions XF.pinf := by
  have htn : ¬ (s.is_tie = true) := by simp [ht]
  have hwn : ¬ (s.is_win = true) := by simp [hw]
  rw [minimax, if_neg htn, if_neg hwn, if_neg (by decide), minimaxMinLoop_fst]

theorem maxValsFrom_util (nd : ℕ) : ∀ (l : List (T3Action × T3State))
    (init : XF),
    (∀ p ∈ l, isUtil (minimax p.2 false (nd + 1)).1 = true) →
    (isUtil init = true ∨ (init = XF.ninf ∧ l ≠ [])) →
    isUtil (maxValsFrom nd l init) = true
  | [], init, _, hinv => by
    rw [maxValsFrom_nil]
    rcases hinv with h | ⟨_, h⟩
    · exact h
    · exact absurd rfl h
  | (act, c) :: rest, init, hch, hinv => by
    rw [maxValsFrom_cons]
    have hc := hch (act, c) (List.mem_cons_self _ _)
    have hnext : isUtil (max init (minimax c false (nd + 1)).1) = true := by
      rcases hinv with h | ⟨h, _⟩
      · rcases max_choice init (minimax c false (nd + 1)).1 with hm | hm <;>
          rw [hm]
        · exact h
        · exact hc
      · rw [h, max_eq_right (XF.ninf_le _)]
        exact hc
    exact maxValsFrom_util nd rest _
      (fun p hp => hch p (List.mem_cons_of_mem _ hp)) (Or.inl hnext)

theorem minValsFrom_util (nd : ℕ) : ∀ (l : List (T3Action × T3State))
    (init : XF),
    (∀ p ∈ l, isUtil (minimax p.2 true (nd + 1)).1 = true) →
    (isUtil init = true ∨ (init = XF.pinf ∧ l ≠ [])) →
    isUtil (minValsFrom nd l init) = true
  | [], init, _, hinv => by
    rw [minValsFrom_nil]
    rcases hinv with h | ⟨_, h⟩
    · exact h
    · exact absurd rfl h
  | (act, c) :: rest, init, hch, hinv => by
    rw [minValsFrom_cons]
    have hc := hch (act, c) (List.mem_cons_self _ _)
    have hnext : isUtil (min init (minimax c true (nd + 1)).1) = true := by
      rcases hinv with h | ⟨h, _⟩
      · rcases min_choice init (minimax c true (nd + 1)).1 with hm | hm <;>
          rw [hm]
        · exact h
        · exact hc
      · rw [h, min_eq_right (XF.le_pinf _)]
        exact hc
    exact minValsFrom_util nd rest _
      (fun p hp => hch p (List.mem_cons_of_mem _ hp)) (Or.inl hnext)

theorem minimax_util_aux : ∀ (n : ℕ) (s : T3State), s.sizeS ≤ n →
    s.wf = true → ∀ (mx : Bool) (nd : ℕ),
    isUtil (minimax s mx nd).1 = true := by
  intro n
  induction n with
  | zero =>
    intro s hs
    have := T3State.sizeS_pos s
    omega
  | succ n ih =>
    intro s hs hwf mx nd
    cases ht : s.is_tie with
    | true =>
      rw [minimax, if_pos ht]
      norm_num [isUtil]
    | false =>
      cases hw : s.is_win with
      | true =>
        rw [minimax, if_neg (by simp [ht]), if_pos hw]
        cases mx <;> norm_num [isUtil]
      | false =>
        have hts : s.get_transitions ≠ [] := T3State.wf_nonempty hwf ht hw
        have hchild : ∀ p ∈ s.get_transitions, ∀ (mx' : Bool),
            isUtil (minimax p.2 mx' (nd + 1)).1 = true := by
          intro p hp mx'
          have h1 := T3State.sizeS_child hp
          exact ih p.2 (by omega) (T3State.wf_child hwf hp) mx' (nd + 1)
        cases mx with
        | true =>
          rw [minimax_val_max s nd ht hw]
          exact maxValsFrom_util nd s.get_transitions .ninf
            (fun p hp => hchild p hp false) (Or.inr ⟨rfl, hts⟩)
        | false =>
          rw [minimax_val_min s nd ht hw]
          exact minValsFrom_util nd s.get_transitions .pinf
            (fun p hp => hchild p hp true) (Or.inr ⟨rfl, hts⟩)

theorem alphabetaMaxLoop_sound (B : XF) (nd : ℕ) :
    ∀ (moves : List (T3Action × T3State)) (a0 a best : XF)
      (opt : Option T3Action) (low : ℕ),
    a < B →
    a = max a0 best →
    (∀ p ∈ moves, ∀ a' : XF, a' < B →
      (((minimax p.2 false (nd + 1)).1 ≤ a' →
          (alphabeta p.2 a' B false true (nd + 1)).1 ≤ a') ∧
       (B ≤ (minimax p.2 false (nd + 1)).1 →
          B ≤ (alphabeta p.2 a' B false true (nd + 1)).1) ∧
       (a' < (minimax p.2 false (nd + 1)).1 →
          (minimax p.2 false (nd + 1)).1 < B →
          (alphabeta p.2 a' B false true (nd + 1)).1 =
            (minimax p.2 false (nd + 1)).1))) →
    ((maxValsFrom nd moves best ≤ a0 →
        (alphabetaMaxLoop moves a B nd best opt low).1 ≤ a0) ∧
     (B ≤ maxValsFrom nd moves best →
        B ≤ (alphabetaMaxLoop moves a B nd best opt low).1) ∧
     (a0 < maxValsFrom nd moves best → maxValsFrom nd moves best < B →
        (alphabetaMaxLoop moves a B nd best opt low).1 =
          maxValsFrom nd moves best))
  | [], a0, a, best, opt, low, haB, ha, hch => by
    rw [alphabetaMaxLoop_nil, maxValsFrom_nil]
    exact ⟨id, id, fun _ _ => rfl⟩
  | (act, child) :: rest, a0, a, best, opt, low, haB, ha, hch => by
    obtain ⟨c1, c2, c3⟩ := hch (act, child) (List.mem_cons_self _ _) a haB
    have hba : best ≤ a := by rw [ha]; exact le_max_right a0 best
    have ha0a : a0 ≤ a := by rw [ha]; exact le_max_left a0 best
    rw [alphabetaMaxLoop_cons, maxValsFrom_cons]
    simp only
    set vc := (minimax child false (nd + 1)).1 with hvcdef
    set rc := (alphabeta child a B false true (nd + 1)).1 with hrcdef
    set rd := (alphabeta child a B false true (nd + 1)).2.2 with hrddef
    set M := maxValsFrom nd rest XF.ninf with hMdef
    rw [best_choice_max_fst, XF.pmax_eq_max, ← max_assoc, max_eq_left hba]
    have hV : maxValsFrom nd rest (max best vc) = max (max best vc) M :=
      maxValsFrom_init nd rest _
    rcases le_or_lt B (max a rc) with hbr | hbr
    · rw [if_pos (XF.le_iff.2 hbr)]
      rw [best_choice_max_fst]
      have hrcB : B ≤ rc := by
        rcases le_max_iff.1 hbr with h | h
        · exact absurd h (not_le.2 haB)
        · exact h
      have hbrc : best ≤ rc := hba.trans (haB.le.trans hrcB)
      rw [max_eq_right hbrc]
      have hvcV : vc ≤ maxValsFrom nd rest (max best vc) := by
        rw [hV]; exact le_trans (le_max_right best vc) (le_max_left _ _)
      refine ⟨?_, fun _ => hrcB, ?_⟩
      · intro h
        exact absurd (c1 ((hvcV.trans h).trans ha0a))
          (not_le.2 (lt_of_lt_of_le haB hrcB))
      · intro h1 h2
        exfalso
        have hvcB : vc < B := lt_of_le_of_lt hvcV h2
        rcases le_or_lt vc a with hle | hlt
        · exact absurd (c1 hle) (not_le.2 (lt_of_lt_of_le haB hrcB))
        · have heq := c3 hlt hvcB
          rw [heq] at hrcB
          exact absurd hvcB (not_lt.2 hrcB)
    · rw [if_neg (fun hc => (not_le.2 hbr) (XF.le_iff.1 hc))]
      have hmaxrcB : max a rc < B := hbr
      have hrcB' : rc < B := lt_of_le_of_lt (le_max_right a rc) hmaxrcB
      have IH := alphabetaMaxLoop_sound B nd rest a0 (max a rc) (max best rc)
        (best_choice_max rc best act opt rd low).2.1
        (best_choice_max rc best act opt rd low).2.2
        hmaxrcB (by rw [ha, max_assoc])
        (fun p hp => hch p (List.mem_cons_of_mem _ hp))
      have hV' : maxValsFrom nd rest (max best rc) = max (max best rc) M :=
        maxValsFrom_init nd rest _
      rcases lt_or_le a vc with hvca | hvca
      · rcases lt_or_le vc B with hvcB | hvcB
        · have hrceq : rc = vc := c3 hvca hvcB
          rw [hrceq] at IH ⊢
          exact IH
        · exact absurd (c2 hvcB) (not_le.2 hrcB')
      · have hrca : rc ≤ a := c1 hvca
        refine ⟨?_, ?_, ?_⟩
        · intro h
          rw [hV] at h
          have hba0 : best ≤ a0 :=
            le_trans (le_max_left best vc) (le_trans (le_max_left _ M) h)
          have haa0 : a = a0 := by rw [ha, max_eq_left hba0]
          apply IH.1
          rw [hV']
          refine max_le (max_le hba0 ?_) ?_
          · rw [← haa0]; exact hrca
          · exact le_trans (le_max_right (max best vc) M) h
        · intro h
          rw [hV] at h
          apply IH.2.1
          rw [hV']
          rcases le_max_iff.1 h with h' | h'
          · exact absurd h'
              (not_le.2 (lt_of_le_of_lt (max_le hba hvca) haB))
          · exact le_trans h' (le_max_right _ _)
        · intro h1 h2
          have hVV : maxValsFrom nd rest (max best rc) =
              maxValsFrom nd rest (max best vc) := by
            rw [hV, hV']
            rcases le_total (max best vc) M with hMle | hMle
            · rw [max_eq_right hMle]
              apply max_eq_right
              have hbM : best ≤ M := le_trans (le_max_left best vc) hMle
              have ha0M : a0 < M := by
                rw [hV, max_eq_right hMle] at h1; exact h1
              exact max_le hbM (le_trans hrca
                (by rw [ha]; exact max_le ha0M.le hbM))
            · rw [max_eq_left hMle]
              have h1' : a0 < max best vc := by
                rw [hV, max_eq_left hMle] at h1; exact h1
              have hbvle : max best vc ≤ max a0 best :=
                max_le (le_max_right a0 best) (by rw [← ha]; exact hvca)
              rcases max_choice a0 best with hc | hc
              · rw [hc] at hbvle
                exact absurd h1' (not_lt.2 hbvle)
              · have hbesteq : max best vc = best :=
                  le_antisymm (hbvle.trans hc.le) (le_max_left best vc)
                rw [hbesteq]
                have hrcb : rc ≤ best := by rw [← hc, ← ha]; exact hrca
                rw [max_eq_left hrcb, max_eq_left (hMle.trans hbesteq.le)]
          have h1' : a0 < maxValsFrom nd rest (max best rc) := by
            rw [hVV]; exact h1
          have h2' : maxValsFrom nd rest (max best rc) < B := by
            rw [hVV]; exact h2
          rw [← hVV]
          exact IH.2.2 h1' h2'

theorem alphabetaMinLoop_sound (a : XF) (nd : ℕ) :
    ∀ (moves : List (T3Action × T3State)) (B0 B best : XF)
      (opt : Option T3Action) (low : ℕ),
    a < B →
    B = min B0 best →
    (∀ p ∈ moves, ∀ B' : XF, a < B' →
      (((minimax p.2 true (nd + 1)).1 ≤ a →
          (alphabeta p.2 a B' true false (nd + 1)).1 ≤ a) ∧
       (B' ≤ (minimax p.2 true (nd + 1)).1 →
          B' ≤ (alphabeta p.2 a B' true false (nd + 1)).1) ∧
       (a < (minimax p.2 true (nd + 1)).1 →
          (minimax p.2 true (nd + 1)).1 < B' →
          (alphabeta p.2 a B' true false (nd + 1)).1 =
            (minimax p.2 true (nd + 1)).1))) →
    ((minValsFrom nd moves best ≤ a →
        (alphabetaMinLoop moves a B nd best opt low).1 ≤ a) ∧
     (B0 ≤ minValsFrom nd moves best →
        B0 ≤ (alphabetaMinLoop moves a B nd best opt low).1) ∧
     (a < minValsFrom nd moves best → minValsFrom nd moves best < B0 →
        (alphabetaMinLoop moves a B nd best opt low).1 =
          minValsFrom nd moves best))
  | [], B0, B, best, opt, low, haB, hB, hch => by
    rw [alphabetaMinLoop_nil, minValsFrom_nil]
    exact ⟨id, id, fun _ _ => rfl⟩
  | (act, child) :: rest, B0, B, best, opt, low, haB, hB, hch => by
    obtain ⟨c1, c2, c3⟩ := hch (act, child) (List.mem_cons_self _ _) B haB
    have hBb : B ≤ best := by rw [hB]; exact min_le_right B0 best
    have hB0B : B ≤ B0 := by rw [hB]; exact min_le_left B0 best
    rw [alphabetaMinLoop_cons, minValsFrom_cons]
    simp only
    set vc := (minimax child true (nd + 1)).1 with hvcdef
    set rc := (alphabeta child a B true false (nd + 1)).1 with hrcdef
    set rd := (alphabeta child a B true false (nd + 1)).2.2 with hrddef
    set M := minValsFrom nd rest XF.pinf with hMdef
    rw [best_choice_min_fst, XF.pmin_eq_min, ← min_assoc, min_eq_left hBb]
    have hV : minValsFrom nd rest (min best vc) = min (min best vc) M :=
      minValsFrom_init nd rest _
    have hVvc : minValsFrom nd rest (min best vc) ≤ vc := by
      rw [hV]; exact le_trans (min_le_left _ M) (min_le_right best vc)
    rcases le_or_lt (min B rc) a with hbr | hbr
    · rw [if_pos (XF.le_iff.2 hbr)]
      rw [best_choice_min_fst]
      have hrca : rc ≤ a := by
        rcases min_le_iff.1 hbr with h | h
        · exact absurd h (not_le.2 haB)
        · exact h
      have hrcb : rc ≤ best := hrca.trans (haB.le.trans hBb)
      rw [min_eq_right hrcb]
      refine ⟨fun _ => hrca, ?_, ?_⟩
      · intro h
        have hBvc : B ≤ vc := hB0B.trans (h.trans hVvc)
        exact absurd ((c2 hBvc).trans hrca) (not_le.2 haB)
      · intro h1 h2
        exfalso
        have havc : a < vc := lt_of_lt_of_le h1 hVvc
        rcases lt_or_le vc B with hvcB | hvcB
        · have heq := c3 havc hvcB
          rw [heq] at hrca
          exact absurd havc (not_lt.2 hrca)
        · exact absurd ((c2 hvcB).trans hrca) (not_le.2 haB)
    · rw [if_neg (fun hc => (not_le.2 hbr) (XF.le_iff.1 hc))]
      have hrca' : a < rc := lt_of_lt_of_le hbr (min_le_right B rc)
      have IH := alphabetaMinLoop_sound a nd rest B0 (min B rc) (min best rc)
        (best_choice_min rc best act opt rd low).2.1
        (best_choice_min rc best act opt rd low).2.2
        hbr (by rw [hB, min_assoc])
        (fun p hp => hch p (List.mem_cons_of_mem _ hp))
      have hV' : minValsFrom nd rest (min best rc) = min (min best rc) M :=
        minValsFrom_init nd rest _
      rcases le_or_lt vc a with hvca | hvca
      · exact absurd (c1 hvca) (not_le.2 hrca')
      · rcases lt_or_le vc B with hvcB | hvcB
        · have hrceq : rc = vc := c3 hvca hvcB
          rw [hrceq] at IH ⊢
          exact IH
        · have hrcB : B ≤ rc := c2 hvcB
          refine ⟨?_, ?_, ?_⟩
          · intro h
            rw [hV] at h
            apply IH.1
            rw [hV']
            rcases min_le_iff.1 h with h' | h'
            · exact absurd h'
                (not_le.2 (lt_of_lt_of_le haB (le_min hBb hvcB)))
            · exact le_trans (min_le_right (min best rc) M) h'
          · intro h
            rw [hV] at h
            have hB0bv : B0 ≤ min best vc := le_trans h (min_le_left _ M)
            have hB0best : B0 ≤ best := hB0bv.trans (min_le_left best vc)
            have hBB0 : B = B0 := by rw [hB, min_eq_left hB0best]
            apply IH.2.1
            rw [hV']
            refine le_min (le_min hB0best ?_) ?_
            · rw [← hBB0]; exact hrcB
            · exact le_trans h (min_le_right (min best vc) M)
          · intro h1 h2
            have hVV : minValsFrom nd rest (min best rc) =
                minValsFrom nd rest (min best vc) := by
              rw [hV, hV']
              rcases le_total M (min best vc) with hMle | hMle
              · rw [min_eq_right hMle]
                apply min_eq_right
                have hMbest : M ≤ best := hMle.trans (min_le_left best vc)
                have hMB0 : M < B0 := by
                  rw [hV, min_eq_right hMle] at h2; exact h2
                exact le_min hMbest (le_trans
                  (by rw [hB]; exact le_min hMB0.le hMbest) hrcB)
              · rw [min_eq_left hMle]
                have h2' : min best vc < B0 := by
                  rw [hV, min_eq_left hMle] at h2; exact h2
                have hbvge : min B0 best ≤ min best vc :=
                  le_min (min_le_right B0 best) (by rw [← hB]; exact hvcB)
                rcases min_choice B0 best with hc | hc
                · rw [hc] at hbvge
                  exact absurd h2' (not_lt.2 hbvge)
                · have hbesteq : min best vc = best :=
                    le_antisymm (min_le_left best vc)
                      (le_of_eq_of_le hc.symm hbvge)
                  rw [hbesteq]
                  have hrcb : best ≤ rc :=
                    ((hc.symm.trans hB.symm).le).trans hrcB
                  rw [min_eq_left hrcb,
                    min_eq_left (hbesteq.symm.le.trans hMle)]
            have h1' : a < minValsFrom nd rest (min best rc) := by
              rw [hVV]; exact h1
            have h2' : minValsFrom nd rest (min best rc) < B0 := by
              rw [hVV]; exact h2
            rw [← hVV]
            exact IH.2.2 h1' h2'

theorem alphabeta_sound_aux : ∀ (n : ℕ) (s : T3State), s.sizeS ≤ n →
    s.wf = true → ∀ (a B : XF) (mx : Bool) (nd : ℕ), a < B →
    (((minimax s mx nd).1 ≤ a → (alphabeta s a B mx (!mx) nd).1 ≤ a) ∧
     (B ≤ (minimax s mx nd).1 → B ≤ (alphabeta s a B mx (!mx) nd).1) ∧
     (a < (minimax s mx nd).1 → (minimax s mx nd).1 < B →
        (alphabeta s a B mx (!mx) nd).1 = (minimax s mx nd).1)) := by
  intro n
  induction n with
  | zero =>
    intro s hs
    have := T3State.sizeS_pos s
    omega
  | succ n ih =>
    intro s hs hwf a B mx nd haB
    cases ht : s.is_tie with
    | true =>
      rw [alphabeta, if_pos ht, minimax, if_pos ht]
      exact ⟨id, id, fun _ _ => rfl⟩
    | false =>
      have htn : ¬ (s.is_tie = true) := by simp [ht]
      cases hw : s.is_win with
      | true =>
        cases mx with
        | true =>
          rw [alphabeta, if_neg htn, if_pos hw, minimax, if_neg htn,
            if_pos hw]
          exact ⟨id, id, fun _ _ => rfl⟩
        | false =>
          rw [alphabeta, if_neg htn, if_pos hw, minimax, if_neg htn,
            if_pos hw]
          exact ⟨id, id, fun _ _ => rfl⟩
      | false =>
        have hwn : ¬ (s.is_win = true) := by simp [hw]
        cases mx with
        | true =>
          rw [alphabeta, if_neg htn, if_neg hwn, if_pos (by decide),
            minimax_val_max s nd ht hw]
          exact alphabetaMaxLoop_sound B nd s.get_transitions a a XF.ninf
            none nd haB (max_eq_left (XF.ninf_le a)).symm
            (fun p hp a' ha' => by
              have h1 := T3State.sizeS_child hp
              have := ih p.2 (by omega) (T3State.wf_child hwf hp) a' B false
                (nd + 1) ha'
              simpa using this)
        | false =>
          rw [alphabeta, if_neg htn, if_neg hwn, if_neg (by decide),
            if_pos (by decide), minimax_val_min s nd ht hw]
          exact alphabetaMinLoop_sound a nd s.get_transitions B B XF.pinf
            none nd haB (min_eq_left (XF.le_pinf B)).symm
            (fun p hp B' hB' => by
              have h1 := T3State.sizeS_child hp
              have := ih p.2 (by omega) (T3State.wf_child hwf hp) a B' true
                (nd + 1) hB'
              simpa using this)


/-- Claim C1, counterexample: on the well-formed tree `cexRoot` the pruning
search and the exhaustive minimax agree on the root utility (`1/2`) but
return different actions — pruning inside the second child cuts off its
losing continuation, reporting an equal-utility result at a smaller depth and
flipping the root depth tie-break.  The claim that pruning never changes the
returned (utility, action) pair is therefore false. -/
theorem C1_counterexample :
    T3State.wf cexRoot = true ∧
    (alphabeta cexRoot .ninf .pinf true false 0).1 = XF.fin (1/2) ∧
    (minimax cexRoot true 0).1 = XF.fin (1/2) ∧
    (alphabeta cexRoot .ninf .pinf true false 0).2.1 = some ⟨1, 0, 0⟩ ∧
    (minimax cexRoot true 0).2.1 = some ⟨0, 0, 0⟩ ∧
    (alphabeta cexRoot .ninf .pinf true false 0).2.1 ≠
      (minimax cexRoot true 0).2.1 := by
  refine ⟨by rfl, ?_, ?_, ?_, ?_, ?_⟩ <;>
    (simp [cexRoot, cexChild1, cexChild2, tieS, winS, alphabeta,
      alphabetaMaxLoop, alphabetaMinLoop, minimax, minimaxMaxLoop,
      minimaxMinLoop, best_choice_max, best_choice_min, T3State.is_tie,
      T3State.is_win, T3State.get_transitions, T3Action.lt, T3Action.ltOpt,
      XF.pmax, XF.pmin, XF.le, XF.lt] <;> norm_num)

/-- Claim C1, amended: for every state satisfying the state-abstraction
contract, running the search with pruning enabled from the full window
returns the same utility as the exhaustive unpruned minimax — the
game-theoretic value of the state.  (The returned action and depth may
differ when pruning cuts off equal-utility subtrees, per the
counterexample.) -/
theorem C1_pruning_preserves_utility (s : T3State) (h : s.wf = true) :
    (alphabeta s .ninf .pinf true false 0).1 = (minimax s true 0).1 := by
  have hv := minimax_util_aux s.sizeS s le_rfl h true 0
  have hs := alphabeta_sound_aux s.sizeS s le_rfl h .ninf .pinf true 0
    (XF.lt_iff.1 rfl)
  have := hs.2.2 (isUtil_ninf_lt hv) (isUtil_lt_pinf hv)
  simpa using this

/-- Witness for the amended C1 at the counterexample root tree. -/
theorem C1_pruning_preserves_utility_witness :
    T3State.wf cexRoot = true ∧
    (alphabeta cexRoot .ninf .pinf true false 0).1 =
      (minimax cexRoot true 0).1 :=
  ⟨rfl, C1_pruning_preserves_utility cexRoot rfl⟩

/-- Claim C2: in the tie-break combination, max and min branches alike, a
candidate with equal utility, equal depth and an action strictly smaller in
the canonical order takes the incumbent's utility and depth but the
candidate's action; in every other equal-utility, equal-depth case the
incumbent triple is returned unchanged. -/
theorem C2_action_tiebreak (u : XF) (act inc : T3Action) (d : ℕ) :
    best_choice_max u u act (some inc) d d =
      (if T3Action.lt act inc then (u, some act, d) else (u, some inc, d)) ∧
    best_choice_min u u act (some inc) d d =
      (if T3Action.lt act inc then (u, some act, d) else (u, some inc, d)) := by
  constructor <;>
    simp [best_choice_max, best_choice_min, T3Action.ltOpt, XF.lt_iff,
      lt_irrefl]

/-- Claim C3: in the tie-break combination, max and min branches alike, a
candidate with utility equal to the incumbent's and a strictly smaller
terminal depth replaces the incumbent triple unconditionally. -/
theorem C3_depth_tiebreak (u : XF) (act : T3Action) (opt : Option T3Action)
    (dn dl : ℕ) (h : dn < dl) :
    best_choice_max u u act opt dn dl = (u, some act, dn) ∧
    best_choice_min u u act opt dn dl = (u, some act, dn) := by
  constructor <;>
    simp [best_choice_max, best_choice_min, XF.lt_iff, lt_irrefl, h]

/-- Witness for C3 at concrete arguments. -/
theorem C3_depth_tiebreak_witness :
    (0 : ℕ) < 1 ∧
    (best_choice_max (XF.fin 1) (XF.fin 1) ⟨0, 0, 0⟩ (some ⟨1, 1, 1⟩) 0 1 =
      (XF.fin 1, some ⟨0, 0, 0⟩, 0) ∧
     best_choice_min (XF.fin 1) (XF.fin 1) ⟨0, 0, 0⟩ (some ⟨1, 1, 1⟩) 0 1 =
      (XF.fin 1, some ⟨0, 0, 0⟩, 0)) :=
  ⟨by decide,
    C3_depth_tiebreak (XF.fin 1) ⟨0, 0, 0⟩ (some ⟨1, 1, 1⟩) 0 1 (by decide)⟩

/-- Claim C4, counterexample: a terminal tie evaluated with `node_depth = 5`
returns depth component `5`, yet the terminal whose utility it reports is the
node itself, `0` plies away — the returned depth is an absolute count from
the search root, not relative to the node being evaluated. -/
theorem C4_counterexample :
    (alphabeta tieS .ninf .pinf true false 5).2.2 = 5 ∧
    reaches tieS true ((alphabeta tieS .ninf .pinf true false 5).1) 0
      = true ∧
    (alphabeta tieS .ninf .pinf true false 5).2.2 ≠ 0 := by
  refine ⟨?_, ?_, ?_⟩ <;>
    simp [tieS, alphabeta, reaches_zero, T3State.is_tie, T3State.is_win]

/-- Claim C4, amended: the depth component returned by every recursive call
equals `node_depth` plus the number of plies from the node under evaluation
to a terminal whose attributed utility is the returned utility — an absolute
count from the search root; since `choose` starts at depth `0`, at the root
it coincides with the ply count. -/
theorem C4_depth_absolute (s : T3State) (h : s.wf = true) (a B : XF)
    (mx : Bool) (nd : ℕ) :
    ∃ k, (alphabeta s a B mx (!mx) nd).2.2 = nd + k ∧
      reaches s mx ((alphabeta s a B mx (!mx) nd).1) k = true :=
  alphabeta_depth_aux s.sizeS s le_rfl h a B mx nd

/-- Witness for the amended C4 at the counterexample root tree. -/
theorem C4_depth_absolute_witness :
    T3State.wf cexRoot = true ∧
    ∃ k, (alphabeta cexRoot .ninf .pinf true false 7).2.2 = 7 + k ∧
      reaches cexRoot true ((alphabeta cexRoot .ninf .pinf true false 7).1) k
        = true :=
  ⟨rfl, C4_depth_absolute cexRoot rfl .ninf .pinf true 7⟩

/-- Claim C5: on a state where `is_win()` holds and `is_tie()` does not, the
search returns utility `1` at a minimizing node and `0` at a maximizing node,
with no action and the current depth — the win is credited to the player who
just moved. -/
theorem C5_win_attribution (s : T3State) (a B : XF) (nd : ℕ)
    (hw : s.is_win = true) (ht : s.is_tie = false) :
    alphabeta s a B false true nd = (.fin 1, none, nd) ∧
    alphabeta s a B true false nd = (.fin 0, none, nd) := by
  constructor <;> (rw [alphabeta]; simp [hw, ht])

/-- Witness for C5 at a concrete won state. -/
theorem C5_win_attribution_witness :
    T3State.is_win winS = true ∧ T3State.is_tie winS = false ∧
    (alphabeta winS .ninf .pinf false true 2 = (.fin 1, none, 2) ∧
     alphabeta winS .ninf .pinf true false 2 = (.fin 0, none, 2)) :=
  ⟨rfl, rfl, C5_win_attribution winS .ninf .pinf 2 rfl rfl⟩

/-- Claim C6: under the state-abstraction contract, `choose` returns no
action exactly on terminal states — `none` whenever `is_win()` or `is_tie()`
holds, and some action whenever the state is non-terminal and enumerates at
least one transition. -/
theorem C6_choose_none_iff_terminal (s : T3State) (h : s.wf = true) :
    ((s.is_win = true ∨ s.is_tie = true) → choose s = none) ∧
    (s.is_win = false → s.is_tie = false → s.get_transitions ≠ [] →
      ∃ act, choose s = some act) := by
  constructor
  · intro h1
    unfold choose
    cases ht : s.is_tie with
    | true => rw [alphabeta, if_pos ht]
    | false =>
      have hw : s.is_win = true := by
        rcases h1 with h1 | h1
        · exact h1
        · exact absurd h1 (by simp [ht])
      rw [alphabeta, if_neg (by simp [ht]), if_pos hw]
      rfl
  · intro hw ht hne
    have hsome := alphabetaMaxLoop_some .pinf 0 s.get_transitions .ninf .ninf
      none 0
      (fun p hp a' => by
        have h1 := alphabeta_util_aux p.2.sizeS p.2 le_rfl
          (T3State.wf_child h hp) a' .pinf false 1
        simpa using h1)
      (Or.inr ⟨rfl, hne⟩)
    unfold choose
    rw [alphabeta, if_neg (by simp [ht]), if_neg (by simp [hw]),
      if_pos (by decide)]
    exact Option.isSome_iff_exists.1 hsome

/-- Witness for C6 at the counterexample root tree (non-terminal) — the
second conjunct produces an actual action. -/
theorem C6_choose_none_iff_terminal_witness :
    T3State.wf cexRoot = true ∧
    (((cexRoot.is_win = true ∨ cexRoot.is_tie = true) →
        choose cexRoot = none) ∧
     (cexRoot.is_win = false → cexRoot.is_tie = false →
        cexRoot.get_transitions ≠ [] →
        ∃ act, choose cexRoot = some act)) :=
  ⟨rfl, C6_choose_none_iff_terminal cexRoot rfl⟩

/-- Claim C7: under the contract preconditions the utility returned by every
recursive call, for any window and any consistent flag pair, is exactly one
of `0`, `1/2`, `1`. -/
theorem C7_utilities_three_values (s : T3State) (h : s.wf = true) (a B : XF)
    (mx : Bool) (nd : ℕ) :
    (alphabeta s a B mx (!mx) nd).1 = XF.fin 0 ∨
    (alphabeta s a B mx (!mx) nd).1 = XF.fin (1/2) ∨
    (alphabeta s a B mx (!mx) nd).1 = XF.fin 1 := by
  have h1 := alphabeta_util_aux s.sizeS s le_rfl h a B mx nd
  simpa [isUtil, or_assoc] using h1

/-- Witness for C7 at the counterexample root tree. -/
theorem C7_utilities_three_values_witness :
    T3State.wf cexRoot = true ∧
    ((alphabeta cexRoot .ninf .pinf true false 0).1 = XF.fin 0 ∨
     (alphabeta cexRoot .ninf .pinf true false 0).1 = XF.fin (1/2) ∨
     (alphabeta cexRoot .ninf .pinf true false 0).1 = XF.fin 1) :=
  ⟨rfl, C7_utilities_three_values cexRoot rfl .ninf .pinf true 0⟩

/-- Claim C8: on every game tree (the transition relation being well-founded
by construction), the search computes a result within recursion depth
bounded by the height of the tree: the fuel-limited search with any budget of
at least the tree height never exhausts its budget and returns exactly the
result of the unlimited search. -/
theorem C8_search_terminates (s : T3State) (fuel : ℕ)
    (h : s.heightS ≤ fuel) (a B : XF) (mx mn : Bool) (nd : ℕ) :
    alphabetaFuel fuel s a B mx mn nd = some (alphabeta s a B mx mn nd) :=
  alphabetaFuel_eq fuel s h a B mx mn nd

/-- Witness for C8 at the counterexample root tree with its exact height. -/
theorem C8_search_terminates_witness :
    T3State.heightS cexRoot ≤ 4 ∧
    alphabetaFuel 4 cexRoot .ninf .pinf true false 0 =
      some (alphabeta cexRoot .ninf .pinf true false 0) :=
  ⟨by decide, C8_search_terminates cexRoot 4 (by decide) .ninf .pinf true
    false 0⟩

/-- Claim C9: every call reachable from `choose` keeps the two role flags
opposite (`is_max = !is_min`), and on such calls `alphabeta` coincides with
the single-role search in which the inconsistent-flags fall-through branch
does not exist by construction; `choose` itself is the single-role search
started as maximizing. -/
theorem C9_role_flags_invariant :
    (∀ (s : T3State) (a B : XF) (mx : Bool) (nd : ℕ),
      alphabeta s a B mx (!mx) nd = alphabetaR s a B mx nd) ∧
    (∀ s : T3State, choose s = (alphabetaR s .ninf .pinf true 0).2.1) := by
  constructor
  · intro s a B mx nd
    exact alphabeta_eq_R_aux s.sizeS s le_rfl a B mx nd
  · intro s
    exact congrArg (fun r => r.2.1)
      (alphabeta_eq_R_aux s.sizeS s le_rfl .ninf .pinf true 0)

/-- Claim C10: the tie test takes priority over the win test — whenever
`is_tie()` holds the search returns `(1/2, none, node_depth)` for any flags
and any window, even if `is_win()` also holds. -/
theorem C10_tie_priority (s : T3State) (a B : XF) (mx mn : Bool) (nd : ℕ)
    (ht : s.is_tie = true) :
    alphabeta s a B mx mn nd = (.fin (1/2), none, nd) := by
  rw [alphabeta, if_pos ht]

/-- Witness for C10 at a state reporting both a tie and a win. -/
theorem C10_tie_priority_witness :
    T3State.is_tie (T3State.mk true true []) = true ∧
    T3State.is_win (T3State.mk true true []) = true ∧
    alphabeta (T3State.mk true true []) .ninf .pinf true false 4 =
      (.fin (1/2), none, 4) :=
  ⟨rfl, rfl, C10_tie_priority (T3State.mk true true []) .ninf .pinf true
    false 4 rfl⟩
